import Mathlib

/-!
Verification of the `Multinomial` distribution class
(`tensorflow/contrib/distributions/python/ops/multinomial.py`).

Shallow embedding conventions:
* Tensors of floating-point scalars are modelled with exact values: parameter
  and count tensors carry `ℚ` entries (every float value is a rational), while
  transcendental computations (`log`, `exp`, `lgamma`) land in `ℝ`.
* Density and moment methods operate elementwise over the batch; we model one
  batch element: a single distribution with scalar `total_count` and a
  length-`k` `probs` vector (`Fin k → ℚ`), exactly as each batch slice is
  treated by the elementwise source operations.
* Fallible operations (validation assertions, construction, sampling rank
  checks) return `Except`.
* Collaborators that live outside `src/` (`distribution_util`,
  `math_ops`/`random_ops` kernels) are modelled from the spec; each such
  definition carries a doc comment starting with `Modelled from the spec:`.
-/

open scoped ENNReal

namespace TFMultinomial

/-- Error raised by validation assertions (`check_ops` / `distribution_util`
guards): the engine's `InvalidArgumentError`. -/
inductive InvalidArgumentError where
  | invalidTotalCount : InvalidArgumentError
  | invalidCounts : InvalidArgumentError
  | countsSumMismatch : InvalidArgumentError
  | rankAssertion : InvalidArgumentError
deriving DecidableEq, Repr

/-- Error raised when both or neither of `logits`/`probs` are supplied to the
constructor (the spec's `ConfigurationError`). -/
inductive ConfigurationError where
  | invalidParameterization : ConfigurationError
deriving DecidableEq, Repr

/-- Errors that `sample` can raise: `NotImplementedError` for a statically
non-scalar `total_count`, or an evaluation-time rank assertion
(`InvalidArgumentError`) when `validate_args` is set and the rank is unknown
statically. -/
inductive SampleError where
  | notImplemented : SampleError
  | rankAssertion : SampleError
deriving DecidableEq, Repr

/-- One batch element of the `Multinomial` distribution
(multinomial.py, class `Multinomial`): scalar `total_count`, a length-`k`
probability vector `probs`, and the `validate_args` flag. -/
structure Multinomial (k : ℕ) where
  total_count : ℚ
  probs : Fin k → ℚ
  validate_args : Bool

/-- Cached mean value `self._mean_val = self._total_count[..., newaxis] *
self._probs` (multinomial.py line 172), for one batch element with scalar
`total_count`. -/
def mean_val {k : ℕ} (d : Multinomial k) : Fin k → ℚ :=
  fun i => d.total_count * d.probs i

/-- `_mean` (multinomial.py lines 252-253): returns the cached mean value. -/
def mean {k : ℕ} (d : Multinomial k) : Fin k → ℚ :=
  mean_val d

/-- `_variance` (multinomial.py lines 263-266):
`mean_val - mean_val * p` where `p = probs * ones_like(total_count)[..., newaxis]`.
For a single batch element the `ones_like` broadcast multiplies `probs` by `1`,
so `p = probs`. -/
def variance {k : ℕ} (d : Multinomial k) : Fin k → ℚ :=
  fun i => mean_val d i - mean_val d i * (d.probs i * 1)

/-- `_covariance` (multinomial.py lines 255-261): the negated outer product
`-matmul(mean_val[..., newaxis], p[..., newaxis, :])` with the diagonal
overwritten by `_variance()` via `matrix_set_diag`; as above `p = probs * 1`
for a scalar `total_count`. -/
def covariance {k : ℕ} (d : Multinomial k) : Fin k → Fin k → ℚ :=
  fun i j => if i = j then variance d i else -(mean_val d i * (d.probs j * 1))

/-- Modelled from the spec: `distribution_util.embed_check_nonnegative_discrete`
(not under `src/`) asserts that `counts` is elementwise non-negative and
integer-valued; spec 4.4: "`counts` must be element-wise non-negative integers
(fails with `InvalidArgumentError` otherwise)". Over exact `ℚ` entries,
integer-valued means denominator 1. -/
def counts_nonneg_integer {k : ℕ} (c : Fin k → ℚ) : Prop :=
  ∀ i, 0 ≤ c i ∧ (c i).den = 1

instance {k : ℕ} (c : Fin k → ℚ) : Decidable (counts_nonneg_integer c) := by
  unfold counts_nonneg_integer
  infer_instance

/-- `_maybe_assert_valid_sample` (multinomial.py lines 280-291): when
`validate_args` is false, return `counts` unchecked; otherwise assert that
`counts` is elementwise non-negative and integral
(`embed_check_nonnegative_discrete`, spec-modelled) and that
`reduce_sum(counts, -1)` equals `total_count` (`check_ops.assert_equal`). -/
def maybe_assert_valid_sample {k : ℕ} (d : Multinomial k) (c : Fin k → ℚ) :
    Except InvalidArgumentError (Fin k → ℚ) :=
  if d.validate_args = false then .ok c
  else if ¬ counts_nonneg_integer c then .error .invalidCounts
  else if (∑ i, c i) ≠ d.total_count then .error .countsSumMismatch
  else .ok c

/-- Modelled from the spec: the engine's elementwise natural logarithm
(`math_ops.log`, not under `src/`), idealized over `ℝ` (`Real.log`). -/
noncomputable def engine_log (x : ℚ) : ℝ :=
  Real.log (x : ℝ)

/-- Modelled from the spec: `log(x!) = lgamma(x + 1)` (spec 4.4), the
log-gamma route to log-factorials. -/
noncomputable def lgamma (x : ℝ) : ℝ :=
  Real.log (Real.Gamma x)

/-- Modelled from the spec: `distribution_util.log_combinations` (not under
`src/`); spec 4.4: `log_multinomial_coefficient(N, [n_0..n_{k-1}]) = log(N!) -
sum_j log(n_j!)`, computed via log-gamma. -/
noncomputable def log_combinations {k : ℕ} (total_count : ℚ) (c : Fin k → ℚ) : ℝ :=
  lgamma ((total_count : ℝ) + 1) - ∑ i, lgamma ((c i : ℝ) + 1)

/-- Value computed by `_log_unnormalized_prob` (multinomial.py line 246) after
validation: `reduce_sum(counts * log(probs), -1)`. -/
noncomputable def log_unnormalized_prob_val {k : ℕ} (d : Multinomial k) (c : Fin k → ℚ) : ℝ :=
  ∑ i, (c i : ℝ) * engine_log (d.probs i)

/-- Value computed by `_log_normalization` (multinomial.py line 250) after
validation: `-log_combinations(total_count, counts)`. -/
noncomputable def log_normalization_val {k : ℕ} (d : Multinomial k) (c : Fin k → ℚ) : ℝ :=
  -(log_combinations d.total_count c)

/-- Value computed by `_log_prob` (multinomial.py lines 237-238):
`_log_unnormalized_prob(counts) - _log_normalization(counts)`. -/
noncomputable def log_prob_val {k : ℕ} (d : Multinomial k) (c : Fin k → ℚ) : ℝ :=
  log_unnormalized_prob_val d c - log_normalization_val d c

/-- Value computed by `_prob` (multinomial.py lines 240-242):
`exp(_log_prob(counts))`. -/
noncomputable def prob_val {k : ℕ} (d : Multinomial k) (c : Fin k → ℚ) : ℝ :=
  Real.exp (log_prob_val d c)

/-- `_log_unnormalized_prob` (multinomial.py lines 244-246) with its
validation guard. -/
noncomputable def log_unnormalized_prob {k : ℕ} (d : Multinomial k) (c : Fin k → ℚ) :
    Except InvalidArgumentError ℝ :=
  (maybe_assert_valid_sample d c).map (fun v => log_unnormalized_prob_val d v)

/-- `_log_normalization` (multinomial.py lines 248-250) with its validation
guard. -/
noncomputable def log_normalization {k : ℕ} (d : Multinomial k) (c : Fin k → ℚ) :
    Except InvalidArgumentError ℝ :=
  (maybe_assert_valid_sample d c).map (fun v => log_normalization_val d v)

/-- `_log_prob` (multinomial.py lines 237-238): difference of the two guarded
computations. -/
noncomputable def log_prob {k : ℕ} (d : Multinomial k) (c : Fin k → ℚ) :
    Except InvalidArgumentError ℝ := do
  let u ← log_unnormalized_prob d c
  let z ← log_normalization d c
  pure (u - z)

/-- `_prob` (multinomial.py lines 240-242): `exp` of the guarded log prob. -/
noncomputable def prob {k : ℕ} (d : Multinomial k) (c : Fin k → ℚ) :
    Except InvalidArgumentError ℝ :=
  (log_prob d c).map Real.exp

/-- Total probability mass assigned to the simplex of integer count vectors
summing to `N` (spec testable property 3): the sum of `prob` values over all
`c : Fin k → ℕ` with `∑ c = N`. -/
noncomputable def simplex_prob_total {k : ℕ} (d : Multinomial k) (N : ℕ) : ℝ :=
  ∑ c ∈ Finset.piAntidiag Finset.univ N, prob_val d (fun i => ((c i : ℕ) : ℚ))

/-- Static and dynamic shape information of a tensor, as exposed by
`get_shape().ndims` (may be unknown, `none`) and the actual runtime rank. -/
structure TensorShapeInfo where
  static_ndims : Option ℕ
  ndims : ℕ
deriving DecidableEq, Repr

/-- The inputs `_sample_n` reads from `self` (multinomial.py lines 211-234):
the scalar `total_count` value with its shape information, `validate_args`,
the batch shape (`batch_shape_tensor()`), the number of classes `k`
(`event_shape_tensor()[0]`), and the flat row-major data of `logits`, whose
tensor shape is `batch_shape ++ [num_classes]`. -/
structure SampleInput where
  total_count : ℚ
  total_count_shape : TensorShapeInfo
  validate_args : Bool
  batch_shape : List ℕ
  num_classes : ℕ
  logits : List ℚ

/-- Modelled from the spec: the engine's categorical sampler
`random_ops.multinomial(logits, num_samples, seed)` (not under `src/`);
spec 6: `sample_categorical(logits, num_samples, seed) -> integer class
indices`, a deterministic function of its arguments (spec 4.3/5), returning a
`[batch_size, num_samples]` matrix of class indices. -/
def Sampler : Type :=
  List (List ℚ) → ℕ → ℕ → List (List ℕ)

/-- A tensor of counts: shape together with flat row-major data, as produced
by the final `reshape` of `_sample_n`. -/
structure CountTensor where
  shape : List ℕ
  data : List ℕ
deriving DecidableEq, Repr

/-- Row-major reshape of a flat list into rows of length `m` (the effect of
`array_ops.reshape(t, [-1, m])` on the flat data, for data whose length is a
multiple of `m`). -/
def chunkExact {α : Type} (m : ℕ) (l : List α) : List (List α) :=
  (List.range (l.length / m)).map (fun i => (l.drop (i * m)).take m)

/-- Per-class counts of a list of class indices:
`reduce_sum(one_hot(draws, depth=k), axis=-2)` for one row of draws. Class
`c < k` receives one unit per draw equal to `c`; draws outside `[0, k)`
one-hot to the zero vector and are not counted, as in the engine. -/
def countVec (k : ℕ) (ds : List ℕ) : List ℕ :=
  (List.range k).map (fun c => ds.count c)

/-- `array_ops.transpose(x, perm=[1, 0, 2])` on a `[B, n, k]` nested list
whose middle dimension is `n`: the result is `[n, B, k]` with
`result[i][b] = x[b][i]`. -/
def transpose102 {α : Type} (n : ℕ) (x : List (List (List α))) :
    List (List (List α)) :=
  (List.range n).map (fun i => x.map (fun reps => reps.getD i []))

/-- `math_ops.cast(total_count, dtypes.int32)` (multinomial.py line 212) for
an in-int32-range scalar: float-to-integer conversion truncates toward zero.
(Values outside the int32 range are outside this model: the C cast is
undefined there.) -/
def cast_to_int32 (q : ℚ) : ℤ :=
  if 0 ≤ q then ⌊q⌋ else ⌈q⌉

/-- Body of `_sample_n` after the rank guard (multinomial.py lines 222-234):
flatten `logits` to `[-1, k]`, draw `n * n_draws` categorical samples per
flattened batch row, reshape to `[-1, n, n_draws]`, one-hot and sum over the
draws axis to get `[B, n, k]`, transpose to `[n, B, k]`, and reshape to the
final shape `[n] ++ batch_shape ++ [k]`. -/
def sample_pipeline (S : Sampler) (v : SampleInput) (n n_draws seed : ℕ) :
    CountTensor :=
  let logits2d := chunkExact v.num_classes v.logits
  let draws := S logits2d (n * n_draws) seed
  let draws3 := draws.map (chunkExact n_draws)
  let x := draws3.map (fun reps => reps.map (countVec v.num_classes))
  let xt := transpose102 n x
  { shape := n :: v.batch_shape ++ [v.num_classes]
    data := (xt.map (fun bs => bs.flatten)).flatten }

/-- `_sample_n` (multinomial.py lines 211-234): cast `total_count` to int32,
guard on its rank (`NotImplementedError` when the static rank is known and
non-zero; an `assert_rank` failure at evaluation time when the rank is
statically unknown, `validate_args` is set and the runtime rank is non-zero),
then run the sampling pipeline. A negative casted count is clamped to `0`
draws in the model (the engine rejects negative `num_samples` at runtime). -/
def sample_n (S : Sampler) (v : SampleInput) (n seed : ℕ) :
    Except SampleError CountTensor :=
  let n_draws := (cast_to_int32 v.total_count).toNat
  match v.total_count_shape.static_ndims with
  | some nd =>
    if nd ≠ 0 then .error .notImplemented
    else .ok (sample_pipeline S v n n_draws seed)
  | none =>
    if v.validate_args = true ∧ v.total_count_shape.ndims ≠ 0 then
      .error .rankAssertion
    else .ok (sample_pipeline S v n n_draws seed)

/-- Modelled from the spec: softmax along the last axis (spec 4.1: "given
`logits`, derive `probs = softmax(logits)`"), in the extended-real semantics
of the engine's floating-point `exp` (`exp(-inf) = 0`, `exp(inf) = inf`). -/
noncomputable def softmaxE (l : List EReal) : List ℝ≥0∞ :=
  l.map (fun z => EReal.exp z / (l.map EReal.exp).sum)

/-- Modelled from the spec: elementwise logarithm used to derive `logits`
from `probs` (spec 4.1: "given `probs`, derive `logits = log(probs)`", via a
"stable path [that] avoids log(0) blowups": `log 0 = -inf` in the engine's
floating-point semantics, here `ENNReal.log`). -/
noncomputable def probs_to_logits (p : List ℝ≥0∞) : List EReal :=
  p.map ENNReal.log

/-- Errors the constructor can raise: a `ConfigurationError` from the
`logits`/`probs` mutual-exclusion check, or an `InvalidArgumentError` from
parameter validation. -/
inductive InitError where
  | config : ConfigurationError → InitError
  | invalidArgument : InvalidArgumentError → InitError
deriving DecidableEq, Repr

/-- Modelled from the spec: `distribution_util.get_logits_and_probs(logits,
probs, multidimensional=True, validate_args)` (not under `src/`); spec 4.1:
fails with `ConfigurationError` if both or neither of `logits`/`probs` is
supplied; given `logits` derives `probs = softmax(logits)`; given `probs`
derives `logits = log(probs)`; when `validate_args` is set and `probs` is
given, asserts each `probs` row sums to 1 (non-negativity is carried by the
`ℝ≥0∞` representation). -/
noncomputable def get_logits_and_probs (logits : Option (List EReal))
    (probs : Option (List ℝ≥0∞)) (validate_args : Bool) :
    Except InitError (List EReal × List ℝ≥0∞) :=
  match logits, probs with
  | none, none => .error (.config .invalidParameterization)
  | some _, some _ => .error (.config .invalidParameterization)
  | some l, none => .ok (l, softmaxE l)
  | none, some p =>
    if validate_args = true ∧ p.sum ≠ 1 then
      .error (.invalidArgument .invalidCounts)
    else .ok (probs_to_logits p, p)

/-- `_maybe_assert_valid_total_count` (multinomial.py lines 268-278): when
`validate_args` is set, assert `total_count` is non-negative
(`check_ops.assert_non_negative`) and integer-valued
(`distribution_util.assert_integer_form`). -/
def maybe_assert_valid_total_count (total_count : ℚ) (validate_args : Bool) :
    Except InvalidArgumentError ℚ :=
  if validate_args = false then .ok total_count
  else if total_count < 0 then .error .invalidTotalCount
  else if total_count.den ≠ 1 then .error .invalidTotalCount
  else .ok total_count

/-- `__init__` (multinomial.py lines 161-172): validate `total_count`, then
obtain both parameterizations from `get_logits_and_probs`; on success both
`logits` and `probs` are materialized on the instance. -/
noncomputable def multinomial_init (total_count : ℚ)
    (logits : Option (List EReal)) (probs : Option (List ℝ≥0∞))
    (validate_args : Bool) : Except InitError (ℚ × List EReal × List ℝ≥0∞) :=
  match maybe_assert_valid_total_count total_count validate_args with
  | .error e => .error (.invalidArgument e)
  | .ok tc =>
    match get_logits_and_probs logits probs validate_args with
    | .error e => .error e
    | .ok lp => .ok (tc, lp.1, lp.2)

/-! ## Helper lemmas -/

theorem not_counts_nonneg_integer_iff {k : ℕ} (c : Fin k → ℚ) :
    ¬ counts_nonneg_integer c ↔ ∃ i, c i < 0 ∨ (c i).den ≠ 1 := by
  simp only [counts_nonneg_integer, not_forall, not_and_or, not_le]

theorem except_map_error_iff {ε α β : Type} (f : α → β) (x : Except ε α) :
    (∃ e, x.map f = .error e) ↔ ∃ e, x = .error e := by
  cases x <;> simp [Except.map]

theorem maybe_assert_valid_sample_of_not_validate {k : ℕ} (d : Multinomial k)
    (c : Fin k → ℚ) (h : d.validate_args = false) :
    maybe_assert_valid_sample d c = .ok c := by
  simp [maybe_assert_valid_sample, h]

theorem getD_range_map {α : Type} (f : ℕ → α) (n i : ℕ) (hi : i < n) (d : α) :
    ((List.range n).map f).getD i d = f i := by
  rw [List.getD_eq_getElem _ _ (by simpa using hi)]
  simp

theorem getD_map_of_lt {α β : Type} (f : α → β) (l : List α) (i : ℕ)
    (hi : i < l.length) (dβ : β) (dα : α) :
    (l.map f).getD i dβ = f (l.getD i dα) := by
  rw [List.getD_eq_getElem _ _ (by simpa using hi), List.getD_eq_getElem _ _ hi]
  simp

theorem chunkExact_length {α : Type} (m : ℕ) (l : List α) :
    (chunkExact m l).length = l.length / m := by
  simp [chunkExact]

theorem chunkExact_getD {α : Type} (m : ℕ) (l : List α) (i : ℕ)
    (hi : i < l.length / m) :
    (chunkExact m l).getD i [] = (l.drop (i * m)).take m :=
  getD_range_map _ _ _ hi _

theorem chunkExact_length_mem {α : Type} (m : ℕ) (l : List α) (c : List α)
    (hc : c ∈ chunkExact m l) : c.length = m := by
  unfold chunkExact at hc
  rcases List.mem_map.mp hc with ⟨i, hi, rfl⟩
  have hi' : i < l.length / m := List.mem_range.mp hi
  have h1 : i * m + m ≤ l.length := by
    calc i * m + m = (i + 1) * m := by ring
    _ ≤ (l.length / m) * m := Nat.mul_le_mul_right m (Nat.succ_le_of_lt hi')
    _ ≤ l.length := Nat.div_mul_le_self _ _
  simp only [List.length_take, List.length_drop]
  omega

theorem flatten_length_uniform {α : Type} (m : ℕ) (xss : List (List α))
    (h : ∀ xs ∈ xss, xs.length = m) : xss.flatten.length = xss.length * m := by
  induction xss with
  | nil => simp
  | cons xs t ih =>
    simp only [List.flatten_cons, List.length_append, List.length_cons]
    rw [h xs (by simp), ih (fun ys hy => h ys (by simp [hy]))]
    ring

theorem flatten_getD_uniform {α : Type} (d : α) (m : ℕ) (xss : List (List α))
    (h : ∀ xs ∈ xss, xs.length = m) (i j : ℕ) (hi : i < xss.length)
    (hj : j < m) :
    xss.flatten.getD (i * m + j) d = (xss.getD i []).getD j d := by
  induction xss generalizing i with
  | nil => simp at hi
  | cons xs t ih =>
    have hxs : xs.length = m := h xs (by simp)
    cases i with
    | zero =>
      simp only [List.flatten_cons, Nat.zero_mul, Nat.zero_add,
        List.getD_cons_zero]
      exact List.getD_append _ _ _ _ (by omega)
    | succ i' =>
      simp only [List.flatten_cons, List.getD_cons_succ]
      rw [List.getD_append_right _ _ _ _ (by rw [hxs, Nat.succ_mul]; omega)]
      rw [show (i' + 1) * m + j - xs.length = i' * m + j by
        rw [hxs, Nat.succ_mul]; omega]
      exact ih (fun ys hy => h ys (by simp [hy])) i' (by simpa using hi)

theorem countVec_length (k : ℕ) (ds : List ℕ) : (countVec k ds).length = k := by
  simp [countVec]

theorem countVec_getD (k : ℕ) (ds : List ℕ) (c : ℕ) (hc : c < k) :
    (countVec k ds).getD c 0 = ds.count c :=
  getD_range_map _ _ _ hc _

theorem count_range_sum (k : ℕ) (ds : List ℕ) (h : ∀ x ∈ ds, x < k) :
    (∑ c ∈ Finset.range k, ds.count c) = ds.length := by
  induction ds with
  | nil => simp
  | cons x t ih =>
    have hx : x < k := h x (by simp)
    have ht : ∀ y ∈ t, y < k := fun y hy => h y (by simp [hy])
    simp only [List.count_cons, List.length_cons, beq_iff_eq]
    rw [Finset.sum_add_distrib, ih ht]
    simp [Finset.sum_ite_eq, Finset.mem_range, hx]

theorem transpose102_length {α : Type} (n : ℕ) (x : List (List (List α))) :
    (transpose102 n x).length = n := by
  simp [transpose102]

theorem transpose102_getD {α : Type} (n : ℕ) (x : List (List (List α)))
    (i : ℕ) (hi : i < n) :
    (transpose102 n x).getD i [] = x.map (fun reps => reps.getD i []) :=
  getD_range_map _ _ _ hi _

theorem getD_mem {α : Type} (l : List α) (i : ℕ) (hi : i < l.length) (d : α) :
    l.getD i d ∈ l := by
  rw [List.getD_eq_getElem _ _ hi]
  exact List.getElem_mem _

theorem sample_pipeline_spec (S : Sampler) (v : SampleInput)
    (n T seed B : ℕ) (hT : 0 < T)
    (hdlen : (S (chunkExact v.num_classes v.logits) (n * T) seed).length = B)
    (hrows : ∀ r ∈ S (chunkExact v.num_classes v.logits) (n * T) seed,
      r.length = n * T) :
    (sample_pipeline S v n T seed).shape = n :: v.batch_shape ++ [v.num_classes]
    ∧ (sample_pipeline S v n T seed).data.length = n * (B * v.num_classes)
    ∧ ∀ i b c, i < n → b < B → c < v.num_classes →
        (sample_pipeline S v n T seed).data.getD
            ((i * B + b) * v.num_classes + c) 0
          = ((((S (chunkExact v.num_classes v.logits) (n * T) seed).getD b
              []).drop (i * T)).take T).count c := by
  set k := v.num_classes with hk
  set draws := S (chunkExact v.num_classes v.logits) (n * T) seed with hdraws
  set draws3 := draws.map (chunkExact T) with hdraws3
  set x := draws3.map (fun reps => reps.map (countVec k)) with hx
  set xt := transpose102 n x with hxt
  have hd3len : draws3.length = B := by rw [hdraws3, List.length_map, hdlen]
  have hxlen : x.length = B := by rw [hx, List.length_map, hd3len]
  have hxtlen : xt.length = n := transpose102_length n x
  have hchunks : ∀ r ∈ draws, (chunkExact T r).length = n := by
    intro r hr
    rw [chunkExact_length, hrows r hr, Nat.mul_div_cancel _ hT]
  have hxmem : ∀ xb ∈ x, xb.length = n ∧ ∀ z ∈ xb, z.length = k := by
    intro xb hxb
    rw [hx] at hxb
    rcases List.mem_map.mp hxb with ⟨reps, hreps, rfl⟩
    rcases List.mem_map.mp hreps with ⟨r, hr, rfl⟩
    refine ⟨by rw [List.length_map]; exact hchunks r hr, ?_⟩
    intro z hz
    rcases List.mem_map.mp hz with ⟨ds, _, rfl⟩
    exact countVec_length k ds
  have hxtrow : ∀ i, i < n → ∀ z ∈ x.map (fun reps => reps.getD i []),
      z.length = k := by
    intro i hi z hz
    rcases List.mem_map.mp hz with ⟨xb, hxb, rfl⟩
    rcases hxmem xb hxb with ⟨hlen, hall⟩
    exact hall _ (getD_mem xb i (by omega) [])
  have hflrows : ∀ fl ∈ xt.map (fun bs => bs.flatten), fl.length = B * k := by
    intro fl hfl
    rcases List.mem_map.mp hfl with ⟨row, hrow, rfl⟩
    rw [hxt, transpose102] at hrow
    rcases List.mem_map.mp hrow with ⟨i, hi, rfl⟩
    have hi' : i < n := List.mem_range.mp hi
    rw [flatten_length_uniform k _ (hxtrow i hi'), List.length_map, hxlen]
  have hdata : (sample_pipeline S v n T seed).data
      = (xt.map (fun bs => bs.flatten)).flatten := rfl
  have hshape : (sample_pipeline S v n T seed).shape
      = n :: v.batch_shape ++ [v.num_classes] := rfl
  refine ⟨hshape, ?_, ?_⟩
  · rw [hdata, flatten_length_uniform (B * k) _ hflrows, List.length_map,
      hxtlen]
  · intro i b c hi hb hc
    have hidx : (i * B + b) * k + c = i * (B * k) + (b * k + c) := by ring
    have hbkc : b * k + c < B * k := by
      have h1 : b * k + c < (b + 1) * k := by rw [Nat.succ_mul]; omega
      have h2 : (b + 1) * k ≤ B * k := Nat.mul_le_mul_right k (by omega)
      omega
    have hrb : draws.getD b [] ∈ draws :=
      getD_mem draws b (by rw [hdlen]; exact hb) []
    have e1 : x.getD b [] = (draws3.getD b []).map (countVec k) := by
      rw [hx]
      exact getD_map_of_lt _ draws3 b (by rw [hd3len]; exact hb) [] []
    have e2 : draws3.getD b [] = chunkExact T (draws.getD b []) := by
      rw [hdraws3]
      exact getD_map_of_lt _ draws b (by rw [hdlen]; exact hb) [] []
    have e4 : ((chunkExact T (draws.getD b [])).map (countVec k)).getD i []
        = countVec k ((chunkExact T (draws.getD b [])).getD i []) :=
      getD_map_of_lt _ _ i (by rw [hchunks _ hrb]; exact hi) [] []
    have e5 : (chunkExact T (draws.getD b [])).getD i []
        = ((draws.getD b []).drop (i * T)).take T :=
      chunkExact_getD T _ i
        (by rw [hrows _ hrb, Nat.mul_div_cancel _ hT]; exact hi)
    rw [hdata, hidx,
      flatten_getD_uniform 0 (B * k) _ hflrows i (b * k + c)
        (by rw [List.length_map, hxtlen]; exact hi) hbkc,
      getD_map_of_lt (fun bs : List (List ℕ) => bs.flatten) xt i
        (by rw [hxtlen]; exact hi) [] [],
      show xt.getD i [] = x.map (fun reps => reps.getD i []) from by
        rw [hxt]; exact transpose102_getD n x i hi,
      flatten_getD_uniform 0 k _ (hxtrow i hi) b c
        (by rw [List.length_map, hxlen]; exact hb) hc,
      getD_map_of_lt (fun reps : List (List ℕ) => reps.getD i []) x b
        (by rw [hxlen]; exact hb) [] [],
      e1, e2, e4, e5, countVec_getD k _ c hc]

/-! ## Claim theorems -/

/-- Claim C1: for every counts vector, `log_prob` equals
`log_unnormalized_prob` minus `log_normalization`; `log_unnormalized_prob` is
the last-axis sum of `counts * log(probs)`; `log_normalization` is the negated
log multinomial coefficient computed via log-gamma, which on integer-valued
inputs equals `-(log(total_count!) - ∑ log(counts_j!))`; and
`prob = exp(log_prob)`. -/
theorem C1_log_prob_structure {k : ℕ} (d : Multinomial k) (c : Fin k → ℚ) :
    log_prob_val d c = log_unnormalized_prob_val d c - log_normalization_val d c
    ∧ log_unnormalized_prob_val d c = ∑ i, (c i : ℝ) * Real.log ((d.probs i : ℚ) : ℝ)
    ∧ log_normalization_val d c =
        -(Real.log (Real.Gamma ((d.total_count : ℝ) + 1))
          - ∑ i, Real.log (Real.Gamma ((c i : ℝ) + 1)))
    ∧ prob_val d c = Real.exp (log_prob_val d c)
    ∧ (maybe_assert_valid_sample d c = .ok c →
        log_prob d c = .ok (log_prob_val d c) ∧ prob d c = .ok (prob_val d c))
    ∧ ∀ (N : ℕ) (cn : Fin k → ℕ), d.total_count = (N : ℚ) →
        c = (fun i => ((cn i : ℕ) : ℚ)) →
        log_normalization_val d c =
          -(Real.log (Nat.factorial N : ℝ) - ∑ i, Real.log ((Nat.factorial (cn i) : ℝ))) := by
  refine ⟨rfl, rfl, ?_, rfl, ?_, ?_⟩
  · simp [log_normalization_val, log_combinations, lgamma, engine_log]
  · intro h
    constructor
    · simp [log_prob, log_unnormalized_prob, log_normalization, h, Except.map,
        log_prob_val, Bind.bind, Except.bind, Pure.pure, Except.pure]
    · simp [prob, log_prob, log_unnormalized_prob, log_normalization, h,
        Except.map, log_prob_val, prob_val, Bind.bind, Except.bind, Pure.pure,
        Except.pure]
  · intro N cn hN hc
    subst hc
    simp only [log_normalization_val, log_combinations, lgamma, hN]
    rw [show ((N : ℚ) : ℝ) + 1 = (N : ℝ) + 1 by push_cast; ring,
      Real.Gamma_nat_eq_factorial]
    congr 2
    refine Finset.sum_congr rfl (fun i _ => ?_)
    rw [show (((cn i : ℕ) : ℚ) : ℝ) + 1 = ((cn i : ℕ) : ℝ) + 1 by push_cast; ring,
      Real.Gamma_nat_eq_factorial]

/-- Witness for C1 at a concrete distribution (`total_count = 4`,
`probs = [1/5, 4/5]`, `validate_args = false`) and counts `[1, 3]`. -/
theorem C1_log_prob_structure_witness :
    log_prob (⟨4, ![(1 : ℚ)/5, 4/5], false⟩ : Multinomial 2)
        (fun i => (((![1, 3] : Fin 2 → ℕ) i : ℕ) : ℚ))
      = .ok (log_prob_val ⟨4, ![(1 : ℚ)/5, 4/5], false⟩
          (fun i => (((![1, 3] : Fin 2 → ℕ) i : ℕ) : ℚ)))
    ∧ log_normalization_val (⟨4, ![(1 : ℚ)/5, 4/5], false⟩ : Multinomial 2)
        (fun i => (((![1, 3] : Fin 2 → ℕ) i : ℕ) : ℚ))
      = -(Real.log (Nat.factorial 4 : ℝ)
          - ∑ i, Real.log ((Nat.factorial ((![1, 3] : Fin 2 → ℕ) i) : ℝ))) := by
  have h := C1_log_prob_structure (⟨4, ![(1 : ℚ)/5, 4/5], false⟩ : Multinomial 2)
    (fun i => (((![1, 3] : Fin 2 → ℕ) i : ℕ) : ℚ))
  exact ⟨(h.2.2.2.2.1 (by simp [maybe_assert_valid_sample])).1,
    h.2.2.2.2.2 4 ![1, 3] (by norm_num) rfl⟩

/-- Claim C6: each covariance entry off the diagonal is `-mean_i * probs_j`,
the diagonal is `variance`, the matrix is symmetric, and
`variance = mean - mean * probs` elementwise. -/
theorem C6_covariance_matrix {k : ℕ} (d : Multinomial k) (i j : Fin k)
    (hij : i ≠ j) :
    covariance d i j = -(mean d i * d.probs j)
    ∧ covariance d i i = variance d i
    ∧ covariance d i j = covariance d j i
    ∧ variance d i = mean d i - mean d i * d.probs i := by
  refine ⟨?_, ?_, ?_, ?_⟩
  · simp [covariance, mean, mean_val, hij]
  · simp [covariance]
  · simp only [covariance, mean_val, if_neg hij, if_neg (Ne.symm hij)]
    ring
  · simp [variance, mean, mean_val]

/-- Witness for C6 at `total_count = 3`, `probs = [1/4, 3/4]`, entries
`(0, 1)`. -/
theorem C6_covariance_matrix_witness :
    covariance (⟨3, ![(1 : ℚ)/4, 3/4], true⟩ : Multinomial 2) 0 1
      = -(mean ⟨3, ![(1 : ℚ)/4, 3/4], true⟩ 0
          * Multinomial.probs ⟨3, ![(1 : ℚ)/4, 3/4], true⟩ 1)
    ∧ covariance (⟨3, ![(1 : ℚ)/4, 3/4], true⟩ : Multinomial 2) 0 0
      = variance ⟨3, ![(1 : ℚ)/4, 3/4], true⟩ 0
    ∧ covariance (⟨3, ![(1 : ℚ)/4, 3/4], true⟩ : Multinomial 2) 0 1
      = covariance ⟨3, ![(1 : ℚ)/4, 3/4], true⟩ 1 0
    ∧ variance (⟨3, ![(1 : ℚ)/4, 3/4], true⟩ : Multinomial 2) 0
      = mean ⟨3, ![(1 : ℚ)/4, 3/4], true⟩ 0
        - mean ⟨3, ![(1 : ℚ)/4, 3/4], true⟩ 0
          * Multinomial.probs ⟨3, ![(1 : ℚ)/4, 3/4], true⟩ 0 :=
  C6_covariance_matrix ⟨3, ![(1 : ℚ)/4, 3/4], true⟩ 0 1 (by decide)

/-- Claim C4: `sample` fails with `NotImplementedError` whenever the static
rank of `total_count` is known and non-zero; with a statically unknown rank
and `validate_args` enabled it fails with the evaluation-time rank assertion
when the runtime rank is non-zero; with an unknown rank and `validate_args`
disabled no error is raised and the pipeline runs unchecked. -/
theorem C4_sample_rank_errors (S : Sampler) (v : SampleInput) (n seed : ℕ) :
    (∀ nd : ℕ, v.total_count_shape.static_ndims = some nd → nd ≠ 0 →
      sample_n S v n seed = .error .notImplemented)
    ∧ (v.total_count_shape.static_ndims = none → v.validate_args = true →
      v.total_count_shape.ndims ≠ 0 →
      sample_n S v n seed = .error .rankAssertion)
    ∧ (v.total_count_shape.static_ndims = none → v.validate_args = false →
      sample_n S v n seed =
        .ok (sample_pipeline S v n (cast_to_int32 v.total_count).toNat seed)) := by
  refine ⟨?_, ?_, ?_⟩
  · intro nd h hnd
    simp [sample_n, h, hnd]
  · intro h hva hnd
    simp [sample_n, h, hva, hnd]
  · intro h hva
    simp [sample_n, h, hva]

/-- Witness for C4: a statically rank-1 `total_count` raises
`NotImplementedError`; a statically unknown, runtime rank-1 `total_count`
raises the rank assertion when `validate_args` is set. -/
theorem C4_sample_rank_errors_witness :
    sample_n (fun _ _ _ => []) ⟨4, ⟨some 1, 1⟩, false, [], 3, []⟩ 2 7
      = .error .notImplemented
    ∧ sample_n (fun _ _ _ => []) ⟨4, ⟨none, 1⟩, true, [], 3, []⟩ 2 7
      = .error .rankAssertion :=
  ⟨(C4_sample_rank_errors (fun _ _ _ => []) ⟨4, ⟨some 1, 1⟩, false, [], 3, []⟩
      2 7).1 1 rfl (by decide),
   (C4_sample_rank_errors (fun _ _ _ => []) ⟨4, ⟨none, 1⟩, true, [], 3, []⟩
      2 7).2.1 rfl rfl (by decide)⟩

/-- Claim C9: two calls of `sample` with the same seed, the same `n`, the
same deterministic engine sampler and identical distribution parameters
return identical draws. -/
theorem C9_sample_deterministic (S : Sampler) (v₁ v₂ : SampleInput)
    (n seed : ℕ)
    (htc : v₁.total_count = v₂.total_count)
    (hsh : v₁.total_count_shape = v₂.total_count_shape)
    (hva : v₁.validate_args = v₂.validate_args)
    (hbs : v₁.batch_shape = v₂.batch_shape)
    (hk : v₁.num_classes = v₂.num_classes)
    (hlg : v₁.logits = v₂.logits) :
    sample_n S v₁ n seed = sample_n S v₂ n seed := by
  obtain ⟨a₁, b₁, c₁, d₁, e₁, f₁⟩ := v₁
  obtain ⟨a₂, b₂, c₂, d₂, e₂, f₂⟩ := v₂
  cases htc; cases hsh; cases hva; cases hbs; cases hk; cases hlg
  rfl

/-- Witness for C9 at concrete identical parameters (`n = 5`, `seed = 42`). -/
theorem C9_sample_deterministic_witness :
    sample_n (fun l m _ => l.map (fun _ => List.replicate m 0))
        ⟨4, ⟨some 0, 0⟩, false, [], 2, [0, 0]⟩ 5 42
      = sample_n (fun l m _ => l.map (fun _ => List.replicate m 0))
        ⟨4, ⟨some 0, 0⟩, false, [], 2, [0, 0]⟩ 5 42 :=
  C9_sample_deterministic (fun l m _ => l.map (fun _ => List.replicate m 0))
    ⟨4, ⟨some 0, 0⟩, false, [], 2, [0, 0]⟩
    ⟨4, ⟨some 0, 0⟩, false, [], 2, [0, 0]⟩ 5 42 rfl rfl rfl rfl rfl rfl

/-- Claim C3: construction fails with `ConfigurationError` exactly when both
or neither of `logits`/`probs` is supplied; with exactly one supplied (and
otherwise valid parameters) it succeeds and materializes both
representations. -/
theorem C3_parameterization_exclusive (tc : ℚ) (lo : Option (List EReal))
    (po : Option (List ℝ≥0∞)) (va : Bool)
    (htc : maybe_assert_valid_total_count tc va = .ok tc)
    (hpo : ∀ p, po = some p → va = true → p.sum = 1) :
    ((∃ e, multinomial_init tc lo po va = .error (.config e)) ↔
      ((lo = none ∧ po = none) ∨ (lo ≠ none ∧ po ≠ none)))
    ∧ (∀ l, lo = some l → po = none →
        multinomial_init tc lo po va = .ok (tc, l, softmaxE l))
    ∧ (∀ p, lo = none → po = some p →
        multinomial_init tc lo po va = .ok (tc, probs_to_logits p, p)) := by
  unfold multinomial_init
  rw [htc]
  match lo, po with
  | none, none =>
    simp only [get_logits_and_probs]
    refine ⟨?_, by simp, by simp⟩
    simp only [ne_eq, not_true_eq_false, and_self, or_false, and_false, iff_true]
    exact ⟨.invalidParameterization, trivial⟩
  | some l, none => simp [get_logits_and_probs]
  | some l, some p =>
    simp only [get_logits_and_probs]
    refine ⟨?_, by simp, by simp⟩
    simp only [ne_eq, reduceCtorEq, not_false_eq_true, and_self, or_true,
      and_false, false_and, iff_true]
    exact ⟨.invalidParameterization, trivial⟩
  | none, some p =>
    have hcond : ¬(va = true ∧ p.sum ≠ 1) := by
      rintro ⟨h1, h2⟩
      exact h2 (hpo p rfl h1)
    simp [get_logits_and_probs, hcond]

/-- Witness for C3: supplying only `probs = [1]` with `total_count = 4` and
`validate_args` enabled constructs successfully with both representations. -/
theorem C3_parameterization_exclusive_witness :
    multinomial_init 4 none (some [1]) true
      = .ok (4, probs_to_logits [1], [1]) := by
  have h := C3_parameterization_exclusive 4 none (some [1]) true
    (by simp [maybe_assert_valid_total_count])
    (fun p hp _ => by cases hp; simp)
  exact h.2.2 [1] rfl rfl

/-- Claim C5: with `validate_args` enabled, `log_prob`, `prob`,
`log_unnormalized_prob` and `log_normalization` fail with
`InvalidArgumentError` exactly when `counts` has a negative or fractional
entry or its sum differs from `total_count`; with `validate_args` disabled
they raise no error and return the numeric result. -/
theorem C5_counts_validation {k : ℕ} (d : Multinomial k) (c : Fin k → ℚ) :
    (d.validate_args = true →
      (((∃ e, log_unnormalized_prob d c = .error e) ↔
          ((∃ i, c i < 0 ∨ (c i).den ≠ 1) ∨ (∑ i, c i) ≠ d.total_count))
        ∧ ((∃ e, log_normalization d c = .error e) ↔
          ((∃ i, c i < 0 ∨ (c i).den ≠ 1) ∨ (∑ i, c i) ≠ d.total_count))
        ∧ ((∃ e, log_prob d c = .error e) ↔
          ((∃ i, c i < 0 ∨ (c i).den ≠ 1) ∨ (∑ i, c i) ≠ d.total_count))
        ∧ ((∃ e, prob d c = .error e) ↔
          ((∃ i, c i < 0 ∨ (c i).den ≠ 1) ∨ (∑ i, c i) ≠ d.total_count))))
    ∧ (d.validate_args = false →
      (log_unnormalized_prob d c = .ok (log_unnormalized_prob_val d c)
        ∧ log_normalization d c = .ok (log_normalization_val d c)
        ∧ log_prob d c = .ok (log_prob_val d c)
        ∧ prob d c = .ok (prob_val d c))) := by
  constructor
  · intro hva
    have key : (∃ e, maybe_assert_valid_sample d c = .error e) ↔
        ((∃ i, c i < 0 ∨ (c i).den ≠ 1) ∨ (∑ i, c i) ≠ d.total_count) := by
      rw [← not_counts_nonneg_integer_iff]
      by_cases hnn : counts_nonneg_integer c
      · by_cases hs : (∑ i, c i) = d.total_count
        · simp [maybe_assert_valid_sample, hva, hnn, hs]
        · simp [maybe_assert_valid_sample, hva, hnn, hs]
      · simp [maybe_assert_valid_sample, hva, hnn]
    rcases hma : maybe_assert_valid_sample d c with e | r
    · have hbad := key.mp ⟨e, hma⟩
      refine ⟨?_, ?_, ?_, ?_⟩ <;>
        simp [log_unnormalized_prob, log_normalization, log_prob, prob, hma,
          Except.map, Bind.bind, Except.bind, hbad]
    · have hgood : ¬((∃ i, c i < 0 ∨ (c i).den ≠ 1) ∨
          (∑ i, c i) ≠ d.total_count) := by
        intro hb
        rcases key.mpr hb with ⟨e, he⟩
        rw [hma] at he
        exact Except.noConfusion he
      refine ⟨?_, ?_, ?_, ?_⟩ <;>
        simp [log_unnormalized_prob, log_normalization, log_prob, prob, hma,
          Except.map, Bind.bind, Except.bind, Pure.pure, Except.pure, hgood]
  · intro hva
    have hma := maybe_assert_valid_sample_of_not_validate d c hva
    refine ⟨?_, ?_, ?_, ?_⟩ <;>
      simp [log_unnormalized_prob, log_normalization, log_prob, prob, hma,
        Except.map, Bind.bind, Except.bind, Pure.pure, Except.pure,
        log_prob_val, prob_val]

/-- Witness for C5 (spec testable property 8): with `validate_args` enabled,
`log_prob([1,1,1])` on a `total_count = 4` distribution fails (sum mismatch
`3 ≠ 4`). -/
theorem C5_counts_validation_witness :
    ∃ e, log_prob (⟨4, ![(3 : ℚ)/10, 3/10, 2/5], true⟩ : Multinomial 3)
      ![1, 1, 1] = .error e :=
  ((C5_counts_validation (⟨4, ![(3 : ℚ)/10, 3/10, 2/5], true⟩ : Multinomial 3)
    ![1, 1, 1]).1 rfl).2.2.1.mpr (Or.inr (by norm_num [Fin.sum_univ_three]))

/-- Claim C8: for a valid `probs` row summing to 1, construction from `probs`
derives `logits = log(probs)`, and softmax applied to those derived logits
reproduces the original `probs` (round-trip law, in the engine's extended
semantics where `log 0 = -inf` and `exp(-inf) = 0`). -/
theorem C8_probs_logits_roundtrip (p : List ℝ≥0∞) (va : Bool)
    (hsum : p.sum = 1) :
    get_logits_and_probs none (some p) va = .ok (probs_to_logits p, p)
    ∧ probs_to_logits p = p.map ENNReal.log
    ∧ softmaxE (probs_to_logits p) = p := by
  refine ⟨?_, rfl, ?_⟩
  · have hcond : ¬(va = true ∧ p.sum ≠ 1) := by
      rintro ⟨-, h2⟩
      exact h2 hsum
    simp [get_logits_and_probs, hcond]
  · have hexp : (probs_to_logits p).map EReal.exp = p := by
      simp [probs_to_logits, List.map_map, Function.comp_def, ENNReal.exp_log]
    unfold softmaxE
    rw [hexp, hsum]
    simp [probs_to_logits, List.map_map, Function.comp_def, ENNReal.exp_log]

/-- Witness for C8 at the one-class row `probs = [1]`. -/
theorem C8_probs_logits_roundtrip_witness :
    get_logits_and_probs none (some [1]) false
      = .ok (probs_to_logits [1], [1])
    ∧ softmaxE (probs_to_logits [1]) = [1] := by
  have h := C8_probs_logits_roundtrip [1] false (by simp)
  exact ⟨h.1, h.2.2⟩

theorem cast_to_int32_natCast (T : ℕ) : cast_to_int32 ((T : ℕ) : ℚ) = (T : ℤ) := by
  simp [cast_to_int32]

/-- Claim C2: for a scalar integral `total_count = T`, `sample(n, seed)`
calls the categorical sampler on the batch-flattened logits for `n * T`
draws per flattened batch row, chunks each row's draws into `n` windows of
`T`, one-hot-counts each window into `k` classes, transposes `n` to the
front and reshapes to `[n, *batch_shape, k]`: the entry at `(i, b, c)` of the
result is the number of draws equal to `c` in window `i` of flattened batch
row `b`. -/
theorem C2_sample_algorithm (S : Sampler) (v : SampleInput) (n seed T B : ℕ)
    (hscalar : v.total_count_shape.static_ndims = some 0)
    (htc : v.total_count = (T : ℚ)) (hT : 0 < T)
    (hdlen : (S (chunkExact v.num_classes v.logits) (n * T) seed).length = B)
    (hrows : ∀ r ∈ S (chunkExact v.num_classes v.logits) (n * T) seed,
      r.length = n * T) :
    ∃ t, sample_n S v n seed = .ok t
      ∧ t.shape = n :: v.batch_shape ++ [v.num_classes]
      ∧ t.data.length = n * (B * v.num_classes)
      ∧ ∀ i b c, i < n → b < B → c < v.num_classes →
          t.data.getD ((i * B + b) * v.num_classes + c) 0
            = ((((S (chunkExact v.num_classes v.logits) (n * T) seed).getD b
                []).drop (i * T)).take T).count c := by
  have hnd : (cast_to_int32 v.total_count).toNat = T := by
    rw [htc, cast_to_int32_natCast]
    simp
  have hok : sample_n S v n seed = .ok (sample_pipeline S v n T seed) := by
    simp [sample_n, hscalar, hnd]
  obtain ⟨h1, h2, h3⟩ := sample_pipeline_spec S v n T seed B hT hdlen hrows
  exact ⟨sample_pipeline S v n T seed, hok, h1, h2, h3⟩

/-- Witness for C2: one batch row (`batch_shape = [1]`), `k = 2`,
`total_count = 2`, `n = 1`, with a sampler always returning class 1. -/
theorem C2_sample_algorithm_witness :
    ∃ t, sample_n (fun _ m _ => [List.replicate m 1])
        ⟨2, ⟨some 0, 0⟩, false, [1], 2, [0, 0]⟩ 1 0 = .ok t
      ∧ t.shape = 1 :: [1] ++ [2]
      ∧ t.data.length = 1 * (1 * 2)
      ∧ ∀ i b c, i < 1 → b < 1 → c < 2 →
          t.data.getD ((i * 1 + b) * 2 + c) 0
            = ((((((fun _ m _ => [List.replicate m 1]) : Sampler)
                  (chunkExact 2 [0, 0]) (1 * 2) 0).getD b []).drop
                (i * 2)).take 2).count c :=
  C2_sample_algorithm (fun _ m _ => [List.replicate m 1])
    ⟨2, ⟨some 0, 0⟩, false, [1], 2, [0, 0]⟩ 1 0 2 1 rfl (by norm_num)
    (by decide) (by decide) (by decide)

/-- Claim C10: `sample` computes the per-repetition draw count by casting
`total_count` to int32, i.e. truncating toward zero; for a non-negative
fractional scalar `total_count` (possible when `validate_args` is false) each
returned count vector sums to that truncated value, which differs from
`total_count`. -/
theorem C10_fractional_total_count (S : Sampler) (v : SampleInput)
    (n seed B : ℕ)
    (hscalar : v.total_count_shape.static_ndims = some 0)
    (htc0 : 0 ≤ v.total_count) (hfrac : v.total_count.den ≠ 1)
    (hT : 0 < (cast_to_int32 v.total_count).toNat)
    (hdlen : (S (chunkExact v.num_classes v.logits)
        (n * (cast_to_int32 v.total_count).toNat) seed).length = B)
    (hrows : ∀ r ∈ S (chunkExact v.num_classes v.logits)
        (n * (cast_to_int32 v.total_count).toNat) seed,
      r.length = n * (cast_to_int32 v.total_count).toNat)
    (hrange : ∀ r ∈ S (chunkExact v.num_classes v.logits)
        (n * (cast_to_int32 v.total_count).toNat) seed,
      ∀ z ∈ r, z < v.num_classes) :
    cast_to_int32 v.total_count = ⌊v.total_count⌋
    ∧ ((cast_to_int32 v.total_count).toNat : ℚ) ≠ v.total_count
    ∧ ∃ t, sample_n S v n seed = .ok t
        ∧ ∀ i b, i < n → b < B →
            (∑ c ∈ Finset.range v.num_classes,
              t.data.getD ((i * B + b) * v.num_classes + c) 0)
              = (cast_to_int32 v.total_count).toNat := by
  set T := (cast_to_int32 v.total_count).toNat with hTdef
  refine ⟨by simp [cast_to_int32, htc0], ?_, ?_⟩
  · intro h
    apply hfrac
    rw [← h]
    exact Rat.den_natCast _
  · have hok : sample_n S v n seed = .ok (sample_pipeline S v n T seed) := by
      simp [sample_n, hscalar]
    obtain ⟨h1, h2, h3⟩ := sample_pipeline_spec S v n T seed B hT hdlen hrows
    refine ⟨sample_pipeline S v n T seed, hok, ?_⟩
    intro i b hi hb
    set dr := S (chunkExact v.num_classes v.logits) (n * T) seed with hdr
    have hrb : dr.getD b [] ∈ dr :=
      getD_mem dr b (by rw [hdlen]; exact hb) []
    have hchunk_elems : ∀ z ∈ ((dr.getD b []).drop (i * T)).take T,
        z < v.num_classes := fun z hz =>
      hrange _ hrb z (List.mem_of_mem_drop (List.mem_of_mem_take hz))
    have hchunk_len : (((dr.getD b []).drop (i * T)).take T).length = T := by
      simp only [List.length_take, List.length_drop, hrows _ hrb]
      have hmul : (i + 1) * T ≤ n * T := Nat.mul_le_mul_right T (by omega)
      rw [Nat.succ_mul] at hmul
      omega
    calc (∑ c ∈ Finset.range v.num_classes,
          (sample_pipeline S v n T seed).data.getD
            ((i * B + b) * v.num_classes + c) 0)
        = ∑ c ∈ Finset.range v.num_classes,
            (((dr.getD b []).drop (i * T)).take T).count c :=
          Finset.sum_congr rfl
            (fun c hc => h3 i b c hi hb (Finset.mem_range.mp hc))
      _ = (((dr.getD b []).drop (i * T)).take T).length :=
          count_range_sum _ _ hchunk_elems
      _ = T := hchunk_len

/-- Witness for C10 at `total_count = 5/2` (truncated to 2 draws), one batch
row, `k = 2`, `n = 1`, with a sampler always returning class 1. -/
theorem C10_fractional_total_count_witness :
    cast_to_int32 (5/2 : ℚ) = ⌊(5/2 : ℚ)⌋
    ∧ ((cast_to_int32 (5/2 : ℚ)).toNat : ℚ) ≠ (5/2 : ℚ)
    ∧ ∃ t, sample_n (fun _ m _ => [List.replicate m 1])
          ⟨5/2, ⟨some 0, 0⟩, false, [1], 2, [0, 0]⟩ 1 0 = .ok t
        ∧ ∀ i b, i < 1 → b < 1 →
            (∑ c ∈ Finset.range 2, t.data.getD ((i * 1 + b) * 2 + c) 0)
              = (cast_to_int32 (5/2 : ℚ)).toNat := by
  have hcast : (cast_to_int32 ((5 : ℚ)/2)).toNat = 2 := by
    rw [cast_to_int32, if_pos (by norm_num), show ⌊(5 : ℚ)/2⌋ = 2 by norm_num]
    rfl
  refine C10_fractional_total_count (fun _ m _ => [List.replicate m 1])
    ⟨5/2, ⟨some 0, 0⟩, false, [1], 2, [0, 0]⟩ 1 0 1 rfl (by norm_num)
    (by norm_num) (by rw [hcast]; norm_num) (by simp) ?_ ?_
  · intro r hr
    rw [List.mem_singleton] at hr
    subst hr
    simp
  · intro r hr z hz
    rw [List.mem_singleton] at hr
    subst hr
    rw [List.eq_of_mem_replicate hz]
    norm_num

theorem prob_val_eq_multinomial {k : ℕ} (d : Multinomial k) (N : ℕ)
    (hN : d.total_count = (N : ℚ)) (hpos : ∀ i, 0 < d.probs i)
    (c : Fin k → ℕ) (hc : (∑ i, c i) = N) :
    prob_val d (fun i => ((c i : ℕ) : ℚ))
      = (Nat.multinomial Finset.univ c : ℝ)
        * ∏ i, ((d.probs i : ℚ) : ℝ) ^ (c i) := by
  unfold prob_val log_prob_val log_unnormalized_prob_val log_normalization_val
    log_combinations
  rw [hN]
  have hcast1 : ∀ i, (((c i : ℕ) : ℚ) : ℝ) = ((c i : ℕ) : ℝ) := by
    intro i; push_cast; ring
  have hcast2 : (((N : ℕ) : ℚ) : ℝ) = ((N : ℕ) : ℝ) := by push_cast; ring
  simp only [hcast1, hcast2, lgamma, engine_log]
  rw [sub_neg_eq_add, Real.exp_add, Real.exp_sub, Real.exp_sum, Real.exp_sum]
  have hU : ∀ i ∈ Finset.univ,
      Real.exp (((c i : ℕ) : ℝ) * Real.log ((d.probs i : ℚ) : ℝ))
        = ((d.probs i : ℚ) : ℝ) ^ (c i) := by
    intro i _
    rw [Real.exp_nat_mul, Real.exp_log (by exact_mod_cast hpos i)]
  have hA : Real.exp (Real.log (Real.Gamma (((N : ℕ) : ℝ) + 1)))
      = (Nat.factorial N : ℝ) := by
    rw [Real.exp_log (Real.Gamma_pos_of_pos (by positivity)),
      Real.Gamma_nat_eq_factorial]
  have hB : ∀ i ∈ Finset.univ,
      Real.exp (Real.log (Real.Gamma (((c i : ℕ) : ℝ) + 1)))
        = (Nat.factorial (c i) : ℝ) := by
    intro i _
    rw [Real.exp_log (Real.Gamma_pos_of_pos (by positivity)),
      Real.Gamma_nat_eq_factorial]
  rw [Finset.prod_congr rfl hU, Finset.prod_congr rfl hB, hA]
  have hspec : (∏ i, (Nat.factorial (c i) : ℝ))
      * (Nat.multinomial Finset.univ c : ℝ) = (Nat.factorial N : ℝ) := by
    rw [← Nat.cast_prod, ← Nat.cast_mul, Nat.multinomial_spec]
    rw [show (∑ i, c i) = N from hc]
  have hppos : (0 : ℝ) < ∏ i, (Nat.factorial (c i) : ℝ) :=
    Finset.prod_pos fun i _ => by positivity
  rw [← hspec]
  field_simp
  ring

theorem piAntidiag_univ_fin_two_one :
    Finset.piAntidiag (Finset.univ : Finset (Fin 2)) 1
      = {![1, 0], ![0, 1]} := by
  ext f
  simp only [Finset.mem_piAntidiag, Finset.mem_univ, implies_true, and_true,
    Finset.mem_insert, Finset.mem_singleton]
  constructor
  · intro hsum
    rw [Fin.sum_univ_two] at hsum
    have h01 : (f 0 = 1 ∧ f 1 = 0) ∨ (f 0 = 0 ∧ f 1 = 1) := by omega
    rcases h01 with ⟨ha, hb⟩ | ⟨ha, hb⟩
    · left
      funext i
      fin_cases i <;> simp [ha, hb]
    · right
      funext i
      fin_cases i <;> simp [ha, hb]
  · rintro (rfl | rfl) <;> simp [Fin.sum_univ_two]

/-- Counterexample to Claim C7 as stated (probs required only non-negative):
with `probs = [0, 1]` and `total_count = 1`, the probability mass summed over
the two count vectors of the simplex is `2`, not `1` (in the engine's
floating-point arithmetic this sum is `NaN`, since `0 * log 0` arises; either
way it is not `1`). -/
theorem C7_counterexample_zero_prob :
    simplex_prob_total (⟨1, ![0, 1], false⟩ : Multinomial 2) 1 = 2
    ∧ (2 : ℝ) ≠ 1 := by
  constructor
  · unfold simplex_prob_total
    rw [piAntidiag_univ_fin_two_one, Finset.sum_insert (by decide),
      Finset.sum_singleton]
    have e1 : prob_val (⟨1, ![0, 1], false⟩ : Multinomial 2)
        (fun i => (((![1, 0] : Fin 2 → ℕ) i : ℕ) : ℚ)) = 1 := by
      unfold prob_val log_prob_val log_unnormalized_prob_val
        log_normalization_val log_combinations
      simp only [engine_log, lgamma, Fin.sum_univ_two, Matrix.cons_val_zero,
        Matrix.cons_val_one, Matrix.head_cons]
      norm_num [Real.log_zero, Real.log_one, Real.Gamma_one, Real.Gamma_two,
        Real.exp_zero]
    have e2 : prob_val (⟨1, ![0, 1], false⟩ : Multinomial 2)
        (fun i => (((![0, 1] : Fin 2 → ℕ) i : ℕ) : ℚ)) = 1 := by
      unfold prob_val log_prob_val log_unnormalized_prob_val
        log_normalization_val log_combinations
      simp only [engine_log, lgamma, Fin.sum_univ_two, Matrix.cons_val_zero,
        Matrix.cons_val_one, Matrix.head_cons]
      norm_num [Real.log_zero, Real.log_one, Real.Gamma_one, Real.Gamma_two,
        Real.exp_zero]
    rw [e1, e2]
    norm_num
  · norm_num

/-- Claim C7 amended: for strictly positive `probs` summing to 1 and a
natural `total_count = N`, the `prob` values summed over all integer count
vectors of length `k` summing to `N` equal exactly 1 (multinomial theorem). -/
theorem C7_total_mass_positive_probs {k N : ℕ} (p : Fin k → ℚ) (va : Bool)
    (hpos : ∀ i, 0 < p i) (hsum : (∑ i, p i) = 1) :
    simplex_prob_total (⟨(N : ℚ), p, va⟩ : Multinomial k) N = 1 := by
  unfold simplex_prob_total
  have h1 : ∀ c ∈ Finset.piAntidiag (Finset.univ : Finset (Fin k)) N,
      prob_val (⟨(N : ℚ), p, va⟩ : Multinomial k) (fun i => ((c i : ℕ) : ℚ))
        = (Nat.multinomial Finset.univ c : ℝ) * ∏ i, ((p i : ℚ) : ℝ) ^ (c i) := by
    intro c hcmem
    exact prob_val_eq_multinomial _ N rfl hpos c
      (Finset.mem_piAntidiag.mp hcmem).1
  rw [Finset.sum_congr rfl h1,
    ← Finset.sum_pow_eq_sum_piAntidiag Finset.univ (fun i => ((p i : ℚ) : ℝ)) N]
  have hcs : (∑ i, ((p i : ℚ) : ℝ)) = ((∑ i, p i : ℚ) : ℝ) := by
    push_cast
    ring
  rw [hcs, hsum]
  norm_num

/-- Witness for the amended C7 at `total_count = 2`, `probs = [1/2, 1/2]`. -/
theorem C7_total_mass_positive_probs_witness :
    simplex_prob_total
      (⟨((2 : ℕ) : ℚ), ![(1 : ℚ)/2, 1/2], false⟩ : Multinomial 2) 2 = 1 :=
  C7_total_mass_positive_probs ![(1 : ℚ)/2, 1/2] false
    (by intro i; fin_cases i <;> norm_num)
    (by rw [Fin.sum_univ_two]; norm_num)

end TFMultinomial
